import Mathlib

/-!
Verification of the evidence-merge and verdict-derivation logic of the
EthicalTruth `/review` endpoint (`api/review.js`).

The JavaScript source is shallowly embedded: JSON-shaped objects become
structures with `Option`-typed fields (`none` models a missing/`undefined`
field), JS `x || d` on strings becomes `jsOr` (the empty string is falsy),
JS `String.prototype.trim` becomes `jsTrim` over the character list, the
`Map`/`Set` based merge loop becomes an association-list fold with a
`Finset` of statuses, and JS stable `Array.prototype.sort` becomes
`List.mergeSort`.  Numbers are embedded as rationals.
-/

namespace Review

/-- JS `v || d` for an optional string field: `undefined`/`null` and the
empty string are falsy and fall through to the default `d`. -/
def jsOr (v : Option String) (d : String) : String :=
  match v with
  | none => d
  | some s => if s = "" then d else s

/-- Whitespace test used by JS `trim` (embedded via Lean's
`Char.isWhitespace`). -/
def isWS (c : Char) : Bool := c.isWhitespace

/-- Remove leading and trailing whitespace from a character list,
embedding JS `String.prototype.trim`. -/
def trimList (l : List Char) : List Char :=
  ((l.dropWhile isWS).reverse.dropWhile isWS).reverse

/-- JS `s.trim()`. -/
def jsTrim (s : String) : String := String.mk (trimList s.data)

theorem jsOr_some_empty_default (s : String) : jsOr (some s) "" = s := by
  by_cases h : s = "" <;> simp [jsOr, h]

theorem dropWhile_dropWhile {α : Type} (p : α → Bool) (l : List α) :
    (l.dropWhile p).dropWhile p = l.dropWhile p := by
  induction l with
  | nil => rfl
  | cons a t ih => by_cases hpa : p a <;> simp [List.dropWhile_cons, hpa, ih]

theorem dropWhile_eq_self_append {α : Type} {p : α → Bool} {u v : List α}
    (h : List.dropWhile p (u ++ v) = u ++ v) : List.dropWhile p u = u := by
  rw [List.dropWhile_eq_self_iff] at h ⊢
  intro hl
  cases u with
  | nil => simp at hl
  | cons a t =>
    have h0 : 0 < (a :: t ++ v).length := by simp
    have := h h0
    simpa using this

theorem trimList_idem (l : List Char) : trimList (trimList l) = trimList l := by
  unfold trimList
  have hAdrop : (l.dropWhile isWS).dropWhile isWS = l.dropWhile isWS :=
    dropWhile_dropWhile _ _
  have hsplit : l.dropWhile isWS =
      ((l.dropWhile isWS).reverse.dropWhile isWS).reverse ++
        ((l.dropWhile isWS).reverse.takeWhile isWS).reverse := by
    conv_lhs => rw [← List.reverse_reverse (l.dropWhile isWS),
      ← List.takeWhile_append_dropWhile isWS (l.dropWhile isWS).reverse]
    rw [List.reverse_append]
  have hTdrop :
      (((l.dropWhile isWS).reverse.dropWhile isWS).reverse).dropWhile isWS =
        ((l.dropWhile isWS).reverse.dropWhile isWS).reverse := by
    refine dropWhile_eq_self_append (v := ((l.dropWhile isWS).reverse.takeWhile isWS).reverse) ?_
    rw [← hsplit]
    exact hAdrop
  rw [hTdrop, List.reverse_reverse, dropWhile_dropWhile]

theorem jsTrim_idem (s : String) : jsTrim (jsTrim s) = jsTrim s := by
  show String.mk (trimList (String.mk (trimList s.data)).data) = String.mk (trimList s.data)
  rw [show (String.mk (trimList s.data)).data = trimList s.data from rfl, trimList_idem]

/-- First-occurrence deduplication of a list by a key function: an element
is kept iff no earlier element has the same key, and first-seen order is
preserved. -/
def dedupFirstBy {α β : Type} [DecidableEq β] (key : α → β) : List α → List α
  | [] => []
  | a :: l => a :: dedupFirstBy key (l.filter (fun x => key x ≠ key a))
termination_by l => l.length
decreasing_by
  simp only [List.length_cons]
  exact Nat.lt_succ_of_le (List.length_filter_le _ _)

theorem mem_of_mem_dedupFirstBy {α β : Type} [DecidableEq β] (key : α → β) (l : List α)
    (x : α) (hx : x ∈ dedupFirstBy key l) : x ∈ l := by
  induction l using dedupFirstBy.induct key with
  | case1 => simp [dedupFirstBy] at hx
  | case2 a l ih =>
    rw [dedupFirstBy] at hx
    rcases List.mem_cons.mp hx with h | h
    · simp [h]
    · exact List.mem_cons_of_mem _ (List.mem_of_mem_filter (ih h))

theorem mem_dedupFirstBy_id {α : Type} [DecidableEq α] (l : List α) (a : α) :
    a ∈ dedupFirstBy id l ↔ a ∈ l := by
  induction l using dedupFirstBy.induct (id : α → α) with
  | case1 => simp [dedupFirstBy]
  | case2 b l ih =>
    rw [dedupFirstBy]
    by_cases hab : a = b
    · simp [hab]
    · simp only [List.mem_cons, ih, List.mem_filter]
      constructor
      · rintro (h | ⟨h, _⟩)
        · exact Or.inl h
        · exact Or.inr h
      · rintro (h | h)
        · exact Or.inl h
        · exact Or.inr ⟨h, by simpa [id] using hab⟩

theorem dedupFirstBy_append_singleton {α β : Type} [DecidableEq β] (key : α → β)
    (l : List α) (a : α) :
    dedupFirstBy key (l ++ [a]) =
      if key a ∈ l.map key then dedupFirstBy key l else dedupFirstBy key l ++ [a] := by
  induction l using dedupFirstBy.induct key with
  | case1 => simp [dedupFirstBy]
  | case2 b l ih =>
    rw [List.cons_append, dedupFirstBy, List.filter_append]
    by_cases hab : key a = key b
    · have : List.filter (fun x => key x ≠ key b) [a] = [] := by
        simp [List.filter, hab]
      rw [this, List.append_nil, ← dedupFirstBy]
      have : key a ∈ (b :: l).map key := by simp [hab]
      rw [if_pos this]
    · have : List.filter (fun x => key x ≠ key b) [a] = [a] := by
        simp [List.filter, hab]
      rw [this, ih]
      have hmemiff : (key a ∈ (l.filter (fun x => key x ≠ key b)).map key) ↔
          key a ∈ l.map key := by
        simp only [List.mem_map, List.mem_filter]
        constructor
        · rintro ⟨x, ⟨hx, _⟩, hk⟩
          exact ⟨x, hx, hk⟩
        · rintro ⟨x, hx, hk⟩
          exact ⟨x, ⟨hx, by simp [hk, hab]⟩, hk⟩
      by_cases hmem : key a ∈ l.map key
      · rw [if_pos (hmemiff.mpr hmem)]
        have : key a ∈ (b :: l).map key := by simp [hmem]
        rw [if_pos this, dedupFirstBy]
      · rw [if_neg (fun h => hmem (hmemiff.mp h))]
        have : ¬ key a ∈ (b :: l).map key := by
          simp only [List.map_cons, List.mem_cons]
          rintro (h | h)
          · exact hab h
          · exact hmem h
        rw [if_neg this, dedupFirstBy, List.cons_append]

theorem nodup_keys_dedupFirstBy {α β : Type} [DecidableEq β] (key : α → β) (l : List α) :
    ((dedupFirstBy key l).map key).Nodup := by
  induction l using dedupFirstBy.induct key with
  | case1 => simp [dedupFirstBy]
  | case2 a l ih =>
    rw [dedupFirstBy, List.map_cons]
    refine List.nodup_cons.mpr ⟨?_, ih⟩
    intro hmem
    rcases List.mem_map.mp hmem with ⟨x, hx, hk⟩
    have hxf := mem_of_mem_dedupFirstBy _ _ _ hx
    have := (List.mem_filter.mp hxf).2
    simp [hk] at this

theorem dedupFirstBy_eq_self_of_nodup {α β : Type} [DecidableEq β] (key : α → β)
    (l : List α) (h : (l.map key).Nodup) : dedupFirstBy key l = l := by
  induction l using dedupFirstBy.induct key with
  | case1 => simp [dedupFirstBy]
  | case2 a l ih =>
    rw [List.map_cons, List.nodup_cons] at h
    have hfil : l.filter (fun x => key x ≠ key a) = l := by
      rw [List.filter_eq_self]
      intro x hx
      simp only [ne_eq, decide_eq_true_eq]
      intro hk
      exact h.1 (List.mem_map.mpr ⟨x, hx, hk⟩)
    rw [dedupFirstBy, hfil]
    rw [hfil] at ih
    rw [ih h.2]

/-- Provider-reported evidence item (`{quote, url, tier}` in the JSON
schema); `none` models a missing field. -/
structure Evidence where
  quote : Option String
  url : Option String
  tier : Option String
deriving DecidableEq

/-- Provider-reported finding (`{claim, status, evidence}`). -/
structure Finding where
  claim : Option String
  status : Option String
  evidence : Option (List Evidence)
deriving DecidableEq

/-- Structured result object returned by a model client; only the fields
the merge and handler read are modelled. -/
structure ProviderResult where
  findings : Option (List Finding)
  case_id : Option String
deriving DecidableEq

/-- Deduplication key in `dedupeEvidence`:
`` `${(e.quote||"").trim()}|${(e.url||"").trim()}` ``. -/
def keyEv (e : Evidence) : String :=
  jsTrim (jsOr e.quote "") ++ "|" ++ jsTrim (jsOr e.url "")

/-- Canonical item pushed by `dedupeEvidence`:
`{ quote:(e.quote||"").trim(), url:(e.url||"").trim(), tier:e.tier||"other" }`. -/
def canonEv (e : Evidence) : Evidence :=
  ⟨some (jsTrim (jsOr e.quote "")), some (jsTrim (jsOr e.url "")),
   some (jsOr e.tier "other")⟩

/-- One iteration of the loop in `dedupeEvidence`: skip when the key was
seen, otherwise record the key and push the canonical item. -/
def dedupeStep (acc : List String × List Evidence) (e : Evidence) :
    List String × List Evidence :=
  if keyEv e ∈ acc.1 then acc else (keyEv e :: acc.1, acc.2 ++ [canonEv e])

/-- Embedding of `dedupeEvidence(list)` from `api/review.js`. -/
def dedupeEvidence (list : List Evidence) : List Evidence :=
  (list.foldl dedupeStep (([] : List String), ([] : List Evidence))).2

theorem keyEv_canonEv (e : Evidence) : keyEv (canonEv e) = keyEv e := by
  simp [keyEv, canonEv, jsOr_some_empty_default, jsTrim_idem]

theorem canonEv_canonEv (e : Evidence) : canonEv (canonEv e) = canonEv e := by
  have htier : jsOr (some (jsOr e.tier "other")) "other" = jsOr e.tier "other" := by
    rcases e.tier with _ | t
    · simp [jsOr]
    · by_cases ht : t = "" <;> simp [jsOr, ht]
  simp [canonEv, jsOr_some_empty_default, jsTrim_idem, htier]

theorem dedupe_foldl (l : List Evidence) :
    ∀ (seen : List String) (out : List Evidence),
      (l.foldl dedupeStep (seen, out)).2 =
        out ++ (dedupFirstBy keyEv
          (l.filter (fun e => decide (keyEv e ∉ seen)))).map canonEv := by
  induction l with
  | nil => intro seen out; simp [dedupFirstBy]
  | cons e l ih =>
    intro seen out
    rw [List.foldl_cons]
    by_cases hk : keyEv e ∈ seen
    · have hstep : dedupeStep (seen, out) e = (seen, out) := by
        simp [dedupeStep, hk]
      rw [hstep, ih]
      have hfil : (e :: l).filter (fun x => decide (keyEv x ∉ seen)) =
          l.filter (fun x => decide (keyEv x ∉ seen)) := by
        simp [List.filter_cons, hk]
      rw [hfil]
    · have hstep : dedupeStep (seen, out) e = (keyEv e :: seen, out ++ [canonEv e]) := by
        simp [dedupeStep, hk]
      rw [hstep, ih]
      have hfil : (e :: l).filter (fun x => decide (keyEv x ∉ seen)) =
          e :: l.filter (fun x => decide (keyEv x ∉ seen)) := by
        simp [List.filter_cons, hk]
      rw [hfil, dedupFirstBy]
      have hinner : (l.filter (fun x => decide (keyEv x ∉ seen))).filter
            (fun x => keyEv x ≠ keyEv e) =
          l.filter (fun x => decide (keyEv x ∉ keyEv e :: seen)) := by
        rw [List.filter_filter]
        refine List.filter_congr ?_
        intro x _
        simp only [List.mem_cons, not_or, ne_eq, Bool.and_eq_true, decide_eq_true_eq,
          Bool.decide_and]
      rw [hinner]
      simp

/-- Closed form of `dedupeEvidence`: keep the first occurrence of each
dedup key, in order, and canonicalise every kept item. -/
theorem dedupeEvidence_eq (l : List Evidence) :
    dedupeEvidence l = (dedupFirstBy keyEv l).map canonEv := by
  unfold dedupeEvidence
  rw [dedupe_foldl]
  have : l.filter (fun e => decide (keyEv e ∉ ([] : List String))) = l := by
    rw [List.filter_eq_self]
    intro x _
    simp
  rw [this, List.nil_append]

/-- High-credibility tiers: `new Set(["official","regulator","peerreview"])`. -/
def HIGH_TIERS : List String := ["official", "regulator", "peerreview"]

/-- Claim key used to group findings: `(f.claim||"").trim()`. -/
def keyOf (f : Finding) : String := jsTrim (jsOr f.claim "")

/-- Status recorded for a finding: `f.status||"Contested"`. -/
def statusOf (f : Finding) : String := jsOr f.status "Contested"

/-- Evidence list of a finding: `f.evidence||[]`. -/
def evidenceOf (f : Finding) : List Evidence := f.evidence.getD []

/-- Value stored in the `bucket` map for one claim: the accumulated
evidence array `e` and the `Set` of recorded statuses `s`. -/
structure Cell where
  e : List Evidence
  s : Finset String
deriving DecidableEq

/-- One iteration of the grouping loop in `mergeFindings`: create the
bucket entry if absent (appended, preserving `Map` insertion order), then
push the finding's evidence and add its status. -/
def insertFinding (b : List (String × Cell)) (f : Finding) : List (String × Cell) :=
  if b.any (fun p => decide (p.1 = keyOf f)) then
    b.map (fun p =>
      if p.1 = keyOf f then (p.1, ⟨p.2.e ++ evidenceOf f, insert (statusOf f) p.2.s⟩)
      else p)
  else
    b ++ [(keyOf f, ⟨evidenceOf f, {statusOf f}⟩)]

/-- The `bucket` map of `mergeFindings` after the grouping loop, as an
association list in key-insertion order. -/
def bucketize (fs : List Finding) : List (String × Cell) :=
  fs.foldl insertFinding []

/-- Findings contributed by one (possibly absent) provider result:
`if(!r) continue; ... (r.findings||[])`. -/
def findingsOf (r : Option ProviderResult) : List Finding :=
  match r with
  | none => []
  | some r => r.findings.getD []

/-- The findings iterated by `mergeFindings`:
`for(const r of [grok,gpt]){ if(!r) continue; for(const f of (r.findings||[])) ... }`. -/
def allFindings (grok gpt : Option ProviderResult) : List Finding :=
  findingsOf grok ++ findingsOf gpt

/-- Closed form of the bucket cell for claim key `c`: all evidence of the
findings with that key, in order, and the set of their statuses. -/
def cellFor (fs : List Finding) (c : String) : Cell :=
  ⟨(fs.filter (fun f => decide (keyOf f = c))).flatMap evidenceOf,
   ((fs.filter (fun f => decide (keyOf f = c))).map statusOf).toFinset⟩

/-- Bucket keys in insertion order: first occurrences of the claim keys. -/
def groupKeys (fs : List Finding) : List String := dedupFirstBy id (fs.map keyOf)

theorem cellFor_append_singleton (fs : List Finding) (f : Finding) (c : String) :
    cellFor (fs ++ [f]) c =
      if keyOf f = c then
        ⟨(cellFor fs c).e ++ evidenceOf f, insert (statusOf f) (cellFor fs c).s⟩
      else cellFor fs c := by
  by_cases hf : keyOf f = c
  · have hfil : (fs ++ [f]).filter (fun g => decide (keyOf g = c)) =
        fs.filter (fun g => decide (keyOf g = c)) ++ [f] := by
      rw [List.filter_append]
      simp [List.filter, hf]
    rw [if_pos hf]
    unfold cellFor
    rw [hfil, List.flatMap_append, List.map_append, List.toFinset_append]
    simp [Finset.insert_eq, Finset.union_comm]
  · have hfil : (fs ++ [f]).filter (fun g => decide (keyOf g = c)) =
        fs.filter (fun g => decide (keyOf g = c)) := by
      rw [List.filter_append]
      simp [List.filter, hf]
    rw [if_neg hf]
    unfold cellFor
    rw [hfil]

theorem cellFor_of_not_mem (fs : List Finding) (c : String)
    (h : c ∉ fs.map keyOf) : cellFor fs c = ⟨[], ∅⟩ := by
  have hfil : fs.filter (fun f => decide (keyOf f = c)) = [] := by
    rw [List.filter_eq_nil_iff]
    intro f hf
    simp only [decide_eq_true_eq]
    intro hk
    exact h (List.mem_map.mpr ⟨f, hf, hk⟩)
  unfold cellFor
  rw [hfil]
  rfl

/-- The grouping loop of `mergeFindings` computes, in key-insertion order,
the per-claim evidence concatenation and status set. -/
theorem bucketize_eq (fs : List Finding) :
    bucketize fs = (groupKeys fs).map (fun c => (c, cellFor fs c)) := by
  induction fs using List.reverseRecOn with
  | nil => simp [bucketize, groupKeys, dedupFirstBy]
  | append_singleton fs f ih =>
    have hstep : bucketize (fs ++ [f]) = insertFinding (bucketize fs) f := by
      unfold bucketize
      rw [List.foldl_append, List.foldl_cons, List.foldl_nil]
    rw [hstep, ih]
    have hkeys : groupKeys (fs ++ [f]) =
        if keyOf f ∈ fs.map keyOf then groupKeys fs else groupKeys fs ++ [keyOf f] := by
      unfold groupKeys
      rw [List.map_append, List.map_singleton,
        dedupFirstBy_append_singleton (id : String → String) (fs.map keyOf) (keyOf f)]
      simp
    by_cases hmem : keyOf f ∈ fs.map keyOf
    · have hany : (((groupKeys fs).map (fun c => (c, cellFor fs c))).any
          (fun p => decide (p.1 = keyOf f))) = true := by
        rw [List.any_eq_true]
        refine ⟨(keyOf f, cellFor fs (keyOf f)), ?_, by simp⟩
        exact List.mem_map.mpr ⟨keyOf f, (mem_dedupFirstBy_id _ _).mpr hmem, rfl⟩
      rw [insertFinding, if_pos hany, hkeys, if_pos hmem, List.map_map]
      refine List.map_congr_left ?_
      intro c _
      simp only [Function.comp_apply]
      rw [cellFor_append_singleton]
      by_cases hc : keyOf f = c
      · rw [if_pos hc, if_pos hc.symm]
      · rw [if_neg hc, if_neg (fun h => hc h.symm)]
    · have hany : (((groupKeys fs).map (fun c => (c, cellFor fs c))).any
          (fun p => decide (p.1 = keyOf f))) = false := by
        rw [Bool.eq_false_iff]
        intro hx
        rcases List.any_eq_true.mp hx with ⟨p, hp, hpk⟩
        rcases List.mem_map.mp hp with ⟨c, hc, rfl⟩
        simp only [decide_eq_true_eq] at hpk
        exact hmem (hpk ▸ (mem_dedupFirstBy_id _ _).mp hc)
      rw [insertFinding, hany, hkeys, if_neg hmem]
      simp only [Bool.false_eq_true, if_false, List.map_append, List.map_singleton]
      congr 1
      · refine List.map_congr_left ?_
        intro c hc
        have hcne : keyOf f ≠ c := by
          intro h
          exact hmem (h ▸ (mem_dedupFirstBy_id _ _).mp hc)
        rw [cellFor_append_singleton, if_neg hcne]
      · rw [cellFor_append_singleton, if_pos rfl, cellFor_of_not_mem fs _ hmem]
        simp

/-- Tier test in the high-tier count: `HIGH_TIERS.has(e.tier)`; a missing
tier is never a member of the set. -/
def isHigh (e : Evidence) : Bool :=
  match e.tier with
  | some t => decide (t ∈ HIGH_TIERS)
  | none => false

/-- Count `ev.filter(e=>HIGH_TIERS.has(e.tier)).length` of an evidence list. -/
def highCount (l : List Evidence) : ℕ := (l.filter isHigh).length

/-- Status recomputation for a merged claim group, from the status set
and the high-tier count of the deduplicated evidence:
`let status="Rejected"; if(high>=2 && onlySupported) "Supported"; else if(high>=1) "Contested"`
with `onlySupported = s.size===1 && s.has("Supported")`. -/
def recomputeStatus (s : Finset String) (high : ℕ) : String :=
  if 2 ≤ high ∧ s.card = 1 ∧ "Supported" ∈ s then "Supported"
  else if 1 ≤ high then "Contested"
  else "Rejected"

/-- One merged output finding: `{ claim, status, evidence }`. -/
structure MergedFinding where
  claim : String
  status : String
  evidence : List Evidence
deriving DecidableEq

/-- Body of the output loop of `mergeFindings` for one bucket entry. -/
def mkMerged (p : String × Cell) : MergedFinding :=
  let ev := dedupeEvidence p.2.e
  ⟨p.1, recomputeStatus p.2.s (highCount ev), ev⟩

/-- Sort rank: `order={Supported:0,Contested:1,Rejected:2}` (every merged
status is one of the three). -/
def statusRank (s : String) : ℕ :=
  if s = "Supported" then 0 else if s = "Contested" then 1 else 2

/-- Boolean `cmp(a,b) <= 0` for the comparator
`(order[a.status]-order[b.status]) || (b.evidence.length-a.evidence.length)`;
JS stable sort with this comparator is `mergeSort` by this relation. -/
def mergeLE (a b : MergedFinding) : Bool :=
  decide (statusRank a.status < statusRank b.status) ||
    (decide (statusRank a.status = statusRank b.status) &&
     decide (b.evidence.length ≤ a.evidence.length))

/-- The claim groups built by `mergeFindings` from the two provider
results, in `Map` insertion order. -/
def claimGroups (grok gpt : Option ProviderResult) : List (String × Cell) :=
  bucketize (allFindings grok gpt)

/-- Embedding of `mergeFindings(grok,gpt)` from `api/review.js`. -/
def mergeFindings (grok gpt : Option ProviderResult) : List MergedFinding :=
  ((claimGroups grok gpt).map mkMerged).mergeSort mergeLE

/-- Embedding of `deriveVerdict(m)`. -/
def deriveVerdict (m : List MergedFinding) : String :=
  if m.any (fun f => decide (f.status = "Supported")) then
    "Supported claims with safety basis"
  else if m.all (fun f => decide (f.status = "Rejected")) then "Inconclusive"
  else "Mixed evidence; further review needed"

/-- JS `+c.toFixed(4)`: round to four decimal places (half away from zero
coincides with half up on the nonnegative values that survive the clamp;
we embed half up). -/
def toFixed4 (q : ℚ) : ℚ := ((⌊q * 10000 + 1 / 2⌋ : ℤ) : ℚ) / 10000

/-- Embedding of `confidenceOf(m)`: the raw score is rounded to 4 decimal
places and then clamped, exactly as
`Math.max(0, Math.min(0.95, +c.toFixed(4)))`. -/
def confidenceOf (m : List MergedFinding) : ℚ :=
  let t : ℚ := max (m.length : ℚ) 1
  let sup : ℚ := ((m.filter (fun f => decide (f.status = "Supported"))).length : ℚ)
  let con : ℚ := ((m.filter (fun f => decide (f.status = "Contested"))).length : ℚ)
  let c := sup / t * (9 / 10) - con / t * (2 / 10)
  max 0 (min (95 / 100) (toFixed4 c))

/-- The formula as the specification words it: clamp first, then round to
four decimal places. -/
def specConfidence (m : List MergedFinding) : ℚ :=
  let t : ℚ := max (m.length : ℚ) 1
  let sup : ℚ := ((m.filter (fun f => decide (f.status = "Supported"))).length : ℚ)
  let con : ℚ := ((m.filter (fun f => decide (f.status = "Contested"))).length : ℚ)
  let c := sup / t * (9 / 10) - con / t * (2 / 10)
  toFixed4 (max 0 (min (95 / 100) c))

/-- One step of the URL collection in `topSources`:
`if(e.url && !urls.includes(e.url)) urls.push(e.url)`. -/
def urlStep (urls : List String) (e : Evidence) : List String :=
  match e.url with
  | none => urls
  | some u => if u = "" then urls else if u ∈ urls then urls else urls ++ [u]

/-- The full URL accumulation of `topSources` before `slice(0,k)`. -/
def collectUrls (m : List MergedFinding) : List String :=
  m.foldl (fun urls f => f.evidence.foldl urlStep urls) []

/-- Embedding of `topSources(m,k)` from `api/review.js`. -/
def topSources (m : List MergedFinding) (k : ℕ) : List String :=
  (collectUrls m).take k

/-- The url field values in iteration order (findings in list order, each
finding's evidence in order), treating a missing field as the empty
string; used to state the claimed behaviour of `topSources`. -/
def urlValues (m : List MergedFinding) : List String :=
  m.flatMap (fun f => f.evidence.map (fun e => e.url.getD ""))

/-- Top-sources as the claim words it: first occurrence of each distinct
URL value, in order, truncated to `k`. -/
def specTopSourcesClaim (m : List MergedFinding) (k : ℕ) : List String :=
  (dedupFirstBy id (urlValues m)).take k

/-- Top-sources as the code computes it, worded operationally: first
occurrence of each distinct non-empty URL value, truncated to `k`. -/
def specTopSourcesNE (m : List MergedFinding) (k : ℕ) : List String :=
  (dedupFirstBy id ((urlValues m).filter (fun u => u ≠ ""))).take k

/-- Best-effort page snapshot returned by `fetchPageSnapshot`. -/
structure Snapshot where
  url : String
  title : String
  snippet1 : String
  snippet2 : String
deriving DecidableEq

/-- Payload substituted into the locked prompt by `renderPrompt`. -/
structure PromptPayload where
  tweet_text : String
  tweet_url : String
  extracted_links : List String
  page_snapshots : List Snapshot

/-- External collaborators of the handler, per the specification's system
overview: the evidence gatherer (tweet oEmbed fetch, JS-regex link
extraction, page snapshots), the prompt template renderer, and the two
model clients (a client either returns a structured result or fails).
`grokEnabled` models the presence of the optional provider's API key and
`randHex` the random case-id fragment. -/
structure Oracles where
  fetchTweet : String → String
  extractStatusUrl : String → Option String
  extractLinks : String → List String
  fetchPage : String → Snapshot
  render : PromptPayload → String
  openai : String → Except String ProviderResult
  grokEnabled : Bool
  grok : String → Except String ProviderResult
  randHex : String

/-- Request body `{ x_url }`; `none` models a missing field. -/
structure ReqBody where
  x_url : Option String
deriving DecidableEq

/-- Inbound request: HTTP method and parsed JSON body (`none` models an
absent/unparsable body, which the handler coerces to `{}`). -/
structure Req where
  method : String
  body : Option ReqBody
deriving DecidableEq

/-- Response payloads the handler can produce: a bare `{error}` object for
validation failures, the 422 fallback `{error, verdict:"Inconclusive",
known_unknowns}` shape, or the success report (its merge-derived fields;
free-text summary, scores and audit hash are outside the model). -/
inductive RespBody where
  | errorOnly (msg : String)
  | failure (msg : String)
  | report (case_id verdict : String) (confidence : ℚ)
      (findings : List MergedFinding) (top_sources : List String)
      (report_url : String)
deriving DecidableEq

/-- HTTP response: status code and JSON payload. -/
structure Resp where
  status : ℕ
  body : RespBody
deriving DecidableEq

/-- Default of the `REPORT_BASE` environment variable. -/
def REPORT_BASE : String := "https://ethicaltruth.app/r"

/-- The `x_url` validation value: `(body?.x_url || "").trim()`. -/
def xUrlOf (req : Req) : String := jsTrim (jsOr (req.body.bind ReqBody.x_url) "")

/-- Embedding of the HTTP handler of `api/review.js`.  Alongside the
response it returns the log of external calls made, in order, so that
"no side effects" is expressible; the validation branches return before
any call is logged. -/
def handler (o : Oracles) (req : Req) : Resp × List String :=
  if req.method ≠ "POST" then
    (⟨405, RespBody.errorOnly "Use POST with JSON { x_url }"⟩, [])
  else if xUrlOf req = "" then
    (⟨400, RespBody.errorOnly "x_url required"⟩, [])
  else
    let xUrl := xUrlOf req
    let tweet_text := o.fetchTweet xUrl
    let foundUrl := (o.extractStatusUrl tweet_text).getD xUrl
    let extracted_links := dedupFirstBy id
      (((o.extractLinks tweet_text).filter
        (fun u => ¬ u.containsSubstr "/status/")).take 3)
    let snaps := (extracted_links.take 3).map o.fetchPage
    let fetchLog := ["fetchTweet"] ++ (extracted_links.take 3).map (fun u => "fetchPage:" ++ u)
    let prompt := o.render ⟨tweet_text, foundUrl, extracted_links, snaps⟩
    match o.openai prompt with
    | Except.error e => (⟨422, RespBody.failure e⟩, fetchLog ++ ["openai"])
    | Except.ok gpt =>
      let grokRes := if o.grokEnabled then (o.grok prompt).toOption else none
      let grokLog := if o.grokEnabled then ["grok"] else []
      let merged := mergeFindings grokRes (some gpt)
      let verdict := deriveVerdict merged
      let confidence := confidenceOf merged
      let sources := topSources merged 3
      let case_id := jsOr gpt.case_id
        (jsOr (grokRes.bind ProviderResult.case_id) ("ET-" ++ o.randHex))
      let report_url := REPORT_BASE ++ "/" ++ case_id
      (⟨200, RespBody.report case_id verdict confidence merged sources report_url⟩,
       fetchLog ++ ["openai"] ++ grokLog)

/-- The documented output order of `mergeFindings`: ascending status
priority, ties broken by descending evidence-list length. -/
def mergedOrder (a b : MergedFinding) : Prop :=
  statusRank a.status < statusRank b.status ∨
    (statusRank a.status = statusRank b.status ∧
      b.evidence.length ≤ a.evidence.length)

theorem mergeLE_eq_true_iff (a b : MergedFinding) :
    mergeLE a b = true ↔ mergedOrder a b := by
  simp [mergeLE, mergedOrder]

theorem mergeLE_trans (a b c : MergedFinding) (hab : mergeLE a b = true)
    (hbc : mergeLE b c = true) : mergeLE a c = true := by
  rw [mergeLE_eq_true_iff] at hab hbc ⊢
  rcases hab with h1 | ⟨h1, h1'⟩ <;> rcases hbc with h2 | ⟨h2, h2'⟩ <;>
    unfold mergedOrder <;> omega

theorem mergeLE_total (a b : MergedFinding) : (mergeLE a b || mergeLE b a) = true := by
  rw [Bool.or_eq_true, mergeLE_eq_true_iff, mergeLE_eq_true_iff]
  unfold mergedOrder
  omega

/-- C2: for every pair of provider inputs, the list returned by
`mergeFindings` is sorted ascending by status priority (Supported=0,
Contested=1, Rejected=2), with ties broken by descending length of the
merged evidence list. -/
theorem mergeFindings_sorted (grok gpt : Option ProviderResult) :
    List.Sorted mergedOrder (mergeFindings grok gpt) := by
  have h := List.sorted_mergeSort mergeLE_trans mergeLE_total
    ((claimGroups grok gpt).map mkMerged)
  exact h.imp (fun hab => (mergeLE_eq_true_iff _ _).mp hab)

/-- C4: the derived verdict is "Supported claims with safety basis" if
some finding is Supported; otherwise "Inconclusive" if every finding is
Rejected (vacuously so for the empty list); otherwise "Mixed evidence;
further review needed" — checks evaluated in that order, first match
winning. -/
theorem deriveVerdict_spec (m : List MergedFinding) :
    deriveVerdict m =
      (if ∃ f ∈ m, f.status = "Supported" then "Supported claims with safety basis"
       else if ∀ f ∈ m, f.status = "Rejected" then "Inconclusive"
       else "Mixed evidence; further review needed") ∧
    deriveVerdict ([] : List MergedFinding) = "Inconclusive" := by
  refine ⟨?_, rfl⟩
  by_cases h1 : ∃ f ∈ m, f.status = "Supported"
  · have hany : m.any (fun f => decide (f.status = "Supported")) = true := by
      rw [List.any_eq_true]
      rcases h1 with ⟨f, hf, hs⟩
      exact ⟨f, hf, by simp [hs]⟩
    rw [deriveVerdict, if_pos hany, if_pos h1]
  · have hany : m.any (fun f => decide (f.status = "Supported")) = false := by
      rw [Bool.eq_false_iff]
      intro hx
      rcases List.any_eq_true.mp hx with ⟨f, hf, hs⟩
      exact h1 ⟨f, hf, by simpa using hs⟩
    rw [deriveVerdict, hany]
    simp only [Bool.false_eq_true, if_false, if_neg h1]
    by_cases h2 : ∀ f ∈ m, f.status = "Rejected"
    · have hall : m.all (fun f => decide (f.status = "Rejected")) = true := by
        rw [List.all_eq_true]
        intro f hf
        simpa using h2 f hf
      rw [if_pos hall, if_pos h2]
    · have hall : m.all (fun f => decide (f.status = "Rejected")) = false := by
        rw [Bool.eq_false_iff]
        intro hx
        exact h2 (fun f hf => by simpa using List.all_eq_true.mp hx f hf)
      rw [hall]
      simp only [Bool.false_eq_true, if_false, if_neg h2]

/-- C7: `dedupeEvidence` is idempotent — applying it to its own output
yields the same list as applying it once. -/
theorem dedupeEvidence_idempotent (l : List Evidence) :
    dedupeEvidence (dedupeEvidence l) = dedupeEvidence l := by
  rw [dedupeEvidence_eq, dedupeEvidence_eq]
  have hkeys : ((dedupFirstBy keyEv l).map canonEv).map keyEv =
      (dedupFirstBy keyEv l).map keyEv := by
    rw [List.map_map]
    exact List.map_congr_left (fun e _ => keyEv_canonEv e)
  have hnodup : (((dedupFirstBy keyEv l).map canonEv).map keyEv).Nodup := by
    rw [hkeys]
    exact nodup_keys_dedupFirstBy keyEv l
  rw [dedupFirstBy_eq_self_of_nodup keyEv _ hnodup, List.map_map]
  exact List.map_congr_left (fun e _ => canonEv_canonEv e)

theorem toFixed4_mono {a b : ℚ} (hab : a ≤ b) : toFixed4 a ≤ toFixed4 b := by
  unfold toFixed4
  have hfl : ⌊a * 10000 + 1 / 2⌋ ≤ ⌊b * 10000 + 1 / 2⌋ :=
    Int.floor_le_floor (by linarith)
  have hq : ((⌊a * 10000 + 1 / 2⌋ : ℤ) : ℚ) ≤ ((⌊b * 10000 + 1 / 2⌋ : ℤ) : ℚ) := by
    exact_mod_cast hfl
  linarith

theorem toFixed4_zero : toFixed4 0 = 0 := by
  unfold toFixed4
  have : ⌊(0 : ℚ) * 10000 + 1 / 2⌋ = 0 := by
    rw [Int.floor_eq_iff]; norm_num
  rw [this]
  norm_num

theorem toFixed4_nine_tenths : toFixed4 (9 / 10) = 9 / 10 := by
  unfold toFixed4
  have harg : (9 / 10 : ℚ) * 10000 + 1 / 2 = 18001 / 2 := by norm_num
  rw [harg]
  have : ⌊(18001 : ℚ) / 2⌋ = 9000 := by
    rw [Int.floor_eq_iff]; norm_num
  rw [this]
  norm_num

theorem clamp_toFixed4_comm (x : ℚ) (hx : x ≤ 9 / 10) :
    max 0 (min (95 / 100) (toFixed4 x)) = toFixed4 (max 0 (min (95 / 100) x)) := by
  have hxmin : min (95 / 100 : ℚ) x = x := min_eq_right (by linarith)
  by_cases hc : 0 ≤ x
  · have htf0 : (0 : ℚ) ≤ toFixed4 x := by
      have := toFixed4_mono hc
      rwa [toFixed4_zero] at this
    have htf9 : toFixed4 x ≤ 9 / 10 := by
      have := toFixed4_mono hx
      rwa [toFixed4_nine_tenths] at this
    rw [hxmin, max_eq_right hc, min_eq_right (by linarith), max_eq_right htf0]
  · push_neg at hc
    have htfneg : toFixed4 x ≤ 0 := by
      have := toFixed4_mono (le_of_lt hc)
      rwa [toFixed4_zero] at this
    rw [hxmin, max_eq_left (le_of_lt hc), toFixed4_zero,
      min_eq_right (by linarith), max_eq_left htfneg]

/-- C5: for every findings list (including the empty one), `confidenceOf`
equals the specification formula `clamp((sup/t)*0.9 - (con/t)*0.2, 0,
0.95)` rounded to 4 decimal places (the code rounds before clamping, but
the two orders agree because the raw score never exceeds 0.9), and the
result always lies in `[0, 0.95]`; determinism is immediate since the
embedding is a pure function of the list. -/
theorem confidenceOf_spec (m : List MergedFinding) :
    confidenceOf m = specConfidence m ∧
      0 ≤ confidenceOf m ∧ confidenceOf m ≤ 95 / 100 := by
  refine ⟨?_, le_max_left _ _, max_le (by norm_num) (min_le_left _ _)⟩
  unfold confidenceOf specConfidence
  set t : ℚ := max ((m.length : ℚ)) 1 with ht
  set sup : ℚ := ((m.filter (fun f => decide (f.status = "Supported"))).length : ℚ) with hsup
  set con : ℚ := ((m.filter (fun f => decide (f.status = "Contested"))).length : ℚ) with hcon
  have ht1 : (1 : ℚ) ≤ t := le_max_right _ _
  have ht0 : (0 : ℚ) < t := by linarith
  have hsupt : sup ≤ t := by
    have h1 : sup ≤ (m.length : ℚ) := by
      rw [hsup]
      exact_mod_cast List.length_filter_le _ m
    have h2 : (m.length : ℚ) ≤ t := le_max_left _ _
    linarith
  have hsupdiv : sup / t ≤ 1 := (div_le_one ht0).mpr hsupt
  have hcondiv : (0 : ℚ) ≤ con / t := by
    refine div_nonneg ?_ (le_of_lt ht0)
    rw [hcon]
    positivity
  have hc9 : sup / t * (9 / 10) - con / t * (2 / 10) ≤ 9 / 10 := by nlinarith
  exact clamp_toFixed4_comm _ hc9

/-- Evidence item whose quote contains the `"|"` key separator. -/
def evPipeQuote : Evidence := ⟨some "a|b", some "", none⟩

/-- Evidence item with a different (quote, url) pair but the same joined
dedup key as `evPipeQuote`. -/
def evPipeUrl : Evidence := ⟨some "a", some "b|", none⟩

/-- C3 counterexample: the two items have different (trimmed quote,
trimmed url) pairs, yet `dedupeEvidence` drops the second one, because
its key `quote.trim() + "|" + url.trim()` collides: `"a|b" + "|" + ""`
and `"a" + "|" + "b|"` are both `"a|b|"`.  Under the claim's pair-based
identity the output would keep both items. -/
theorem dedupeEvidence_pair_claim_false :
    (jsTrim (jsOr evPipeQuote.quote ""), jsTrim (jsOr evPipeQuote.url "")) ≠
      (jsTrim (jsOr evPipeUrl.quote ""), jsTrim (jsOr evPipeUrl.url "")) ∧
    keyEv evPipeQuote = keyEv evPipeUrl ∧
    dedupeEvidence [evPipeQuote, evPipeUrl] =
      [⟨some "a|b", some "", some "other"⟩] := by
  refine ⟨by decide, by decide, by decide⟩

/-- C3 (amended): `dedupeEvidence` trims quote and url, defaults a
missing or empty tier to "other", never rejects an item as malformed,
and keeps an item iff no earlier item has the same joined key
`trimmed quote ++ "|" ++ trimmed url` (rather than the same (trimmed
quote, trimmed url) pair), preserving first-seen order. -/
theorem dedupeEvidence_spec (l : List Evidence) :
    dedupeEvidence l = (dedupFirstBy keyEv l).map canonEv :=
  dedupeEvidence_eq l

/-- One step of URL accumulation on the already-extracted string values. -/
def strStep (urls : List String) (u : String) : List String :=
  if u ∈ urls then urls else urls ++ [u]

theorem strStep_foldl (l : List String) :
    ∀ acc : List String,
      l.foldl strStep acc =
        acc ++ dedupFirstBy id (l.filter (fun u => decide (u ∉ acc))) := by
  induction l with
  | nil => intro acc; simp [dedupFirstBy]
  | cons u l ih =>
    intro acc
    rw [List.foldl_cons]
    by_cases hu : u ∈ acc
    · have hstep : strStep acc u = acc := by simp [strStep, hu]
      rw [hstep, ih]
      have hfil : (u :: l).filter (fun x => decide (x ∉ acc)) =
          l.filter (fun x => decide (x ∉ acc)) := by
        simp [List.filter_cons, hu]
      rw [hfil]
    · have hstep : strStep acc u = acc ++ [u] := by simp [strStep, hu]
      rw [hstep, ih]
      have hfil : (u :: l).filter (fun x => decide (x ∉ acc)) =
          u :: l.filter (fun x => decide (x ∉ acc)) := by
        simp [List.filter_cons, hu]
      rw [hfil, dedupFirstBy]
      have hinner : (l.filter (fun x => decide (x ∉ acc))).filter
            (fun x => id x ≠ id u) =
          l.filter (fun x => decide (x ∉ acc ++ [u])) := by
        rw [List.filter_filter]
        refine List.filter_congr ?_
        intro x _
        simp only [id, ne_eq, Bool.and_eq_true, decide_eq_true_eq, List.mem_append,
          List.mem_singleton, not_or, Bool.decide_and]
        rw [Bool.and_comm]
      rw [hinner]
      simp

theorem urlStep_as_strStep (urls : List String) (ev : List Evidence) :
    ev.foldl urlStep urls =
      ((ev.map (fun e => e.url.getD "")).filter (fun u => u ≠ "")).foldl strStep urls := by
  induction ev generalizing urls with
  | nil => rfl
  | cons e t ih =>
    rw [List.foldl_cons, List.map_cons]
    rcases he : e.url with _ | u
    · have h1 : urlStep urls e = urls := by simp [urlStep, he]
      rw [h1]
      simp only [Option.getD_none]
      have : ("" :: t.map (fun e => e.url.getD "")).filter (fun u => u ≠ "") =
          (t.map (fun e => e.url.getD "")).filter (fun u => u ≠ "") := by
        simp [List.filter_cons]
      rw [this, ih]
    · simp only [Option.getD_some]
      by_cases hu : u = ""
      · have h1 : urlStep urls e = urls := by simp [urlStep, he, hu]
        rw [h1, hu]
        have : ("" :: t.map (fun e => e.url.getD "")).filter (fun u => u ≠ "") =
            (t.map (fun e => e.url.getD "")).filter (fun u => u ≠ "") := by
          simp [List.filter_cons]
        rw [this, ih]
      · have h1 : urlStep urls e = strStep urls u := by
          simp [urlStep, he, hu, strStep]
        rw [h1]
        have : (u :: t.map (fun e => e.url.getD "")).filter (fun x => x ≠ "") =
            u :: (t.map (fun e => e.url.getD "")).filter (fun x => x ≠ "") := by
          simp [List.filter_cons, hu]
        rw [this, List.foldl_cons, ih]

theorem collectUrls_eq (m : List MergedFinding) :
    collectUrls m = dedupFirstBy id ((urlValues m).filter (fun u => u ≠ "")) := by
  have haux : ∀ (ms : List MergedFinding) (acc : List String),
      ms.foldl (fun urls f => f.evidence.foldl urlStep urls) acc =
        ((urlValues ms).filter (fun u => u ≠ "")).foldl strStep acc := by
    intro ms
    induction ms with
    | nil => intro acc; simp [urlValues]
    | cons f t ih =>
      intro acc
      rw [List.foldl_cons, ih, urlStep_as_strStep]
      have : urlValues (f :: t) =
          f.evidence.map (fun e => e.url.getD "") ++ urlValues t := by
        simp [urlValues]
      rw [this, List.filter_append, List.foldl_append]
  rw [collectUrls, haux m [], strStep_foldl]
  have : ((urlValues m).filter (fun u => u ≠ "")).filter
        (fun u => decide (u ∉ ([] : List String))) =
      (urlValues m).filter (fun u => u ≠ "") := by
    rw [List.filter_eq_self]
    intro x _
    simp
  rw [this, List.nil_append]

/-- Merged finding whose only evidence has an empty url, distinguishing
the code's truthiness check from the claim's "every distinct URL". -/
def mfEmptyUrl : MergedFinding := ⟨"c", "Rejected", [⟨some "q", some "", some "other"⟩]⟩

/-- C8 counterexample: with one evidence item whose url is the empty
string and `k = 1`, collecting "the first occurrence of each distinct URL
(string equality) until k are collected" would return `[""]`, but the
code's `if(e.url && ...)` check skips falsy URLs and returns `[]`. -/
theorem topSources_claim_false :
    topSources [mfEmptyUrl] 1 = [] ∧
      specTopSourcesClaim [mfEmptyUrl] 1 = [""] ∧
      topSources [mfEmptyUrl] 1 ≠ specTopSourcesClaim [mfEmptyUrl] 1 := by
  have h1 : topSources [mfEmptyUrl] 1 = [] := by decide
  have h2 : specTopSourcesClaim [mfEmptyUrl] 1 = [""] := by
    simp [specTopSourcesClaim, urlValues, mfEmptyUrl, dedupFirstBy]
  refine ⟨h1, h2, ?_⟩
  rw [h1, h2]
  decide

/-- C8 (amended): for every merged findings list and count `k`,
`topSources` returns at most `k` URLs with no duplicates, collected by
iterating findings in list order and each finding's evidence in order,
keeping the first occurrence of each distinct non-empty URL (string
equality; items with a missing or empty url are skipped) until `k` are
collected or input is exhausted. -/
theorem topSources_spec (m : List MergedFinding) (k : ℕ) :
    topSources m k = specTopSourcesNE m k ∧
      (topSources m k).length ≤ k ∧ (topSources m k).Nodup := by
  have heq : topSources m k = specTopSourcesNE m k := by
    rw [topSources, specTopSourcesNE, collectUrls_eq]
  refine ⟨heq, List.length_take_le _ _, ?_⟩
  rw [topSources, collectUrls_eq]
  refine (List.take_sublist _ _).nodup ?_
  have := nodup_keys_dedupFirstBy (id : String → String)
    ((urlValues m).filter (fun u => u ≠ ""))
  simpa using this

/-- Concrete collaborator stub used to instantiate handler theorems. -/
def oraclesStub : Oracles :=
  ⟨fun _ => "", fun _ => none, fun _ => [], fun u => ⟨u, "", "", ""⟩,
   fun _ => "", fun _ => Except.error "stub", false, fun _ => Except.error "stub", "0000"⟩

/-- POST request whose `x_url` is whitespace-only. -/
def reqBlank : Req := ⟨"POST", some ⟨some "   "⟩⟩

/-- C9: for every request whose body lacks a non-empty `x_url` (missing,
empty, or whitespace-only after trimming), the handler responds with a
4xx error object and makes no external call at all — in particular it
never invokes a model provider. -/
theorem handler_missing_xurl (o : Oracles) (req : Req) (h : xUrlOf req = "") :
    (handler o req).2 = [] ∧
      400 ≤ (handler o req).1.status ∧ (handler o req).1.status < 500 ∧
      ∃ msg, (handler o req).1.body = RespBody.errorOnly msg := by
  unfold handler
  by_cases hm : req.method ≠ "POST"
  · rw [if_pos hm]
    exact ⟨rfl, by norm_num, by norm_num, ⟨_, rfl⟩⟩
  · rw [if_neg hm, if_pos h]
    exact ⟨rfl, by norm_num, by norm_num, ⟨_, rfl⟩⟩

/-- C9 witness: the whitespace-only request trips the validation and the
stubbed handler run makes no external calls. -/
theorem handler_missing_xurl_witness :
    xUrlOf reqBlank = "" ∧
      ((handler oraclesStub reqBlank).2 = [] ∧
        400 ≤ (handler oraclesStub reqBlank).1.status ∧
        (handler oraclesStub reqBlank).1.status < 500 ∧
        ∃ msg, (handler oraclesStub reqBlank).1.body = RespBody.errorOnly msg) :=
  ⟨by decide, handler_missing_xurl oraclesStub reqBlank (by decide)⟩

theorem card_one_mem_iff_singleton (s : Finset String) :
    (s.card = 1 ∧ "Supported" ∈ s) ↔ s = {"Supported"} := by
  constructor
  · rintro ⟨hcard, hmem⟩
    rcases Finset.card_eq_one.mp hcard with ⟨a, rfl⟩
    rw [Finset.mem_singleton] at hmem
    rw [hmem]
  · rintro rfl
    simp

theorem recomputeStatus_table (s : Finset String) (high : ℕ) :
    (recomputeStatus s high = "Supported" ↔ (s = {"Supported"} ∧ 2 ≤ high)) ∧
    (¬(s = {"Supported"} ∧ 2 ≤ high) →
      (recomputeStatus s high = "Contested" ↔ 1 ≤ high)) ∧
    ((¬(s = {"Supported"} ∧ 2 ≤ high) ∧ ¬ 1 ≤ high) →
      recomputeStatus s high = "Rejected") := by
  unfold recomputeStatus
  by_cases h1 : 2 ≤ high ∧ s.card = 1 ∧ "Supported" ∈ s
  · rw [if_pos h1]
    have hs : s = {"Supported"} := (card_one_mem_iff_singleton s).mp h1.2
    refine ⟨iff_of_true rfl ⟨hs, h1.1⟩, ?_, ?_⟩
    · intro hn
      exact absurd ⟨hs, h1.1⟩ hn
    · rintro ⟨hn, _⟩
      exact absurd ⟨hs, h1.1⟩ hn
  · rw [if_neg h1]
    have hns : ¬(s = {"Supported"} ∧ 2 ≤ high) := by
      rintro ⟨rfl, hh⟩
      exact h1 ⟨hh, by simp, by simp⟩
    by_cases h2 : 1 ≤ high
    · rw [if_pos h2]
      refine ⟨iff_of_false (by decide) hns, fun _ => iff_of_true rfl h2, ?_⟩
      rintro ⟨_, hn2⟩
      exact absurd h2 hn2
    · rw [if_neg h2]
      exact ⟨iff_of_false (by decide) hns, fun _ => iff_of_false (by decide) h2,
        fun _ => rfl⟩

/-- C1: `mergeFindings` maps each claim group to a merged finding, and
for every claim group the recomputed status is Supported iff the status
set is exactly {Supported} and the deduplicated high-tier evidence count
is at least 2; otherwise Contested iff that count is at least 1;
otherwise Rejected. -/
theorem mergeFindings_status_spec (grok gpt : Option ProviderResult)
    (p : String × Cell) (hp : p ∈ claimGroups grok gpt) :
    mergeFindings grok gpt = ((claimGroups grok gpt).map mkMerged).mergeSort mergeLE ∧
    ((mkMerged p).status = "Supported" ↔
      (p.2.s = {"Supported"} ∧ 2 ≤ highCount (dedupeEvidence p.2.e))) ∧
    (¬(p.2.s = {"Supported"} ∧ 2 ≤ highCount (dedupeEvidence p.2.e)) →
      ((mkMerged p).status = "Contested" ↔ 1 ≤ highCount (dedupeEvidence p.2.e))) ∧
    ((¬(p.2.s = {"Supported"} ∧ 2 ≤ highCount (dedupeEvidence p.2.e)) ∧
        ¬ 1 ≤ highCount (dedupeEvidence p.2.e)) →
      (mkMerged p).status = "Rejected") := by
  have := hp
  refine ⟨rfl, ?_⟩
  have hstat : (mkMerged p).status =
      recomputeStatus p.2.s (highCount (dedupeEvidence p.2.e)) := rfl
  rw [hstat]
  exact recomputeStatus_table _ _

/-- Official-tier evidence item used in concrete instantiations. -/
def evOfficial1 : Evidence := ⟨some "q1", some "u1", some "official"⟩

/-- Regulator-tier evidence item used in concrete instantiations. -/
def evRegulator1 : Evidence := ⟨some "q2", some "u2", some "regulator"⟩

/-- A finding reported as Supported with two high-tier evidence items. -/
def findingSupported : Finding :=
  ⟨some "c1", some "Supported", some [evOfficial1, evRegulator1]⟩

/-- Provider result carrying only `findingSupported`. -/
def prSupported : ProviderResult := ⟨some [findingSupported], none⟩

/-- The single claim group built from `prSupported` alone. -/
def groupSupported : String × Cell :=
  ("c1", ⟨[evOfficial1, evRegulator1], {"Supported"}⟩)

/-- C1 witness: the group of `prSupported` is produced by the merge and
its recomputed status is Supported, by the status table. -/
theorem mergeFindings_status_spec_witness :
    groupSupported ∈ claimGroups (some prSupported) none ∧
      ((mkMerged groupSupported).status = "Supported" ↔
        (groupSupported.2.s = {"Supported"} ∧
          2 ≤ highCount (dedupeEvidence groupSupported.2.e))) :=
  ⟨by decide,
   (mergeFindings_status_spec (some prSupported) none groupSupported (by decide)).2.1⟩

theorem map_keyOf_eq {F1 F2 : List Finding}
    (h : F1.map (fun f => (f.claim, f.evidence)) =
         F2.map (fun f => (f.claim, f.evidence))) :
    F1.map keyOf = F2.map keyOf := by
  have h1 : F1.map keyOf =
      (F1.map (fun f => (f.claim, f.evidence))).map (fun q => jsTrim (jsOr q.1 "")) := by
    rw [List.map_map]
    rfl
  have h2 : F2.map keyOf =
      (F2.map (fun f => (f.claim, f.evidence))).map (fun q => jsTrim (jsOr q.1 "")) := by
    rw [List.map_map]
    rfl
  rw [h1, h2, h]

theorem filtered_flatMap_eq {F1 F2 : List Finding}
    (h : F1.map (fun f => (f.claim, f.evidence)) =
         F2.map (fun f => (f.claim, f.evidence))) (c : String) :
    (F1.filter (fun f => decide (keyOf f = c))).flatMap evidenceOf =
      (F2.filter (fun f => decide (keyOf f = c))).flatMap evidenceOf := by
  induction F1 generalizing F2 with
  | nil =>
    have h2 : F2 = [] := List.map_eq_nil_iff.mp h.symm
    subst h2
    rfl
  | cons f t ih =>
    cases F2 with
    | nil => simp at h
    | cons g u =>
      simp only [List.map_cons, List.cons.injEq] at h
      obtain ⟨hhead, htail⟩ := h
      have hclaim : f.claim = g.claim := congrArg Prod.fst hhead
      have hev : f.evidence = g.evidence := congrArg Prod.snd hhead
      have hkey : keyOf f = keyOf g := by unfold keyOf; rw [hclaim]
      have hevOf : evidenceOf f = evidenceOf g := by unfold evidenceOf; rw [hev]
      by_cases hc : keyOf f = c
      · rw [List.filter_cons_of_pos (by simp [hc]),
          List.filter_cons_of_pos (by simp [hkey.symm.trans hc]),
          List.flatMap_cons, List.flatMap_cons, hevOf, ih htail]
      · have hgc : ¬ keyOf g = c := fun hgc => hc (hkey.trans hgc)
        rw [List.filter_cons_of_neg (by simp [hc]),
          List.filter_cons_of_neg (by simp [hgc]), ih htail]

theorem bucketize_swap {F1 F2 : List Finding}
    (h : F1.map (fun f => (f.claim, f.evidence)) =
         F2.map (fun f => (f.claim, f.evidence))) :
    bucketize (F1 ++ F2) = bucketize (F2 ++ F1) := by
  rw [bucketize_eq, bucketize_eq]
  have hkeys : groupKeys (F1 ++ F2) = groupKeys (F2 ++ F1) := by
    unfold groupKeys
    rw [List.map_append, List.map_append, map_keyOf_eq h]
  rw [hkeys]
  refine List.map_congr_left ?_
  intro c _
  have hcell : cellFor (F1 ++ F2) c = cellFor (F2 ++ F1) c := by
    unfold cellFor
    rw [List.filter_append, List.filter_append, List.flatMap_append, List.flatMap_append,
      List.map_append, List.map_append, List.toFinset_append, List.toFinset_append,
      filtered_flatMap_eq h c, Finset.union_comm]
  rw [hcell]

/-- C6: when the two provider results report the same claims with the
same evidence (finding by finding; statuses may differ), `mergeFindings`
yields the same merged list regardless of which provider is passed
first. -/
theorem mergeFindings_comm (r1 r2 : Option ProviderResult)
    (h : (findingsOf r1).map (fun f => (f.claim, f.evidence)) =
         (findingsOf r2).map (fun f => (f.claim, f.evidence))) :
    mergeFindings r1 r2 = mergeFindings r2 r1 := by
  unfold mergeFindings claimGroups allFindings
  rw [bucketize_swap h]

/-- Provider result reporting claim "c1" as Supported on news evidence. -/
def prNewsSupported : ProviderResult :=
  ⟨some [⟨some "c1", some "Supported", some [⟨some "q", some "u", some "news"⟩]⟩], none⟩

/-- Provider result reporting the same claim and evidence as
`prNewsSupported` but with status Contested. -/
def prNewsContested : ProviderResult :=
  ⟨some [⟨some "c1", some "Contested", some [⟨some "q", some "u", some "news"⟩]⟩], none⟩

/-- C6 witness: two providers agreeing on claims and evidence (but not
status) merge identically in either order. -/
theorem mergeFindings_comm_witness :
    (findingsOf (some prNewsSupported)).map (fun f => (f.claim, f.evidence)) =
      (findingsOf (some prNewsContested)).map (fun f => (f.claim, f.evidence)) ∧
    mergeFindings (some prNewsSupported) (some prNewsContested) =
      mergeFindings (some prNewsContested) (some prNewsSupported) :=
  ⟨by decide, mergeFindings_comm (some prNewsSupported) (some prNewsContested) (by decide)⟩

/-- C10: a provider finding whose status field is missing or empty
contributes "Contested" to its claim group's status set, and such a
group can never recompute to Supported, regardless of its high-tier
evidence count. -/
theorem missing_status_never_supported (grok gpt : Option ProviderResult)
    (f : Finding) (hf : f ∈ allFindings grok gpt)
    (hs : f.status = none ∨ f.status = some "") :
    (∀ p ∈ claimGroups grok gpt, p.1 = keyOf f → "Contested" ∈ p.2.s) ∧
    (∀ m ∈ mergeFindings grok gpt, m.claim = keyOf f → m.status ≠ "Supported") := by
  have hst : statusOf f = "Contested" := by
    rcases hs with h | h <;> simp [statusOf, jsOr, h]
  have hcell : ∀ p ∈ claimGroups grok gpt, p.1 = keyOf f → "Contested" ∈ p.2.s := by
    intro p hp hkey
    rw [claimGroups, bucketize_eq] at hp
    rcases List.mem_map.mp hp with ⟨c, _, rfl⟩
    simp only at hkey
    subst hkey
    show "Contested" ∈ (cellFor (allFindings grok gpt) (keyOf f)).s
    unfold cellFor
    rw [List.mem_toFinset]
    refine List.mem_map.mpr ⟨f, ?_, hst⟩
    exact List.mem_filter.mpr ⟨hf, by simp⟩
  refine ⟨hcell, ?_⟩
  intro m hm hclaim
  rw [mergeFindings, List.mem_mergeSort] at hm
  rcases List.mem_map.mp hm with ⟨p, hp, rfl⟩
  have hcmem := hcell p hp hclaim
  show recomputeStatus p.2.s (highCount (dedupeEvidence p.2.e)) ≠ "Supported"
  unfold recomputeStatus
  have hnot : ¬(2 ≤ highCount (dedupeEvidence p.2.e) ∧
      p.2.s.card = 1 ∧ "Supported" ∈ p.2.s) := by
    rintro ⟨_, hcard, hsup⟩
    rcases Finset.card_eq_one.mp hcard with ⟨a, ha⟩
    rw [ha, Finset.mem_singleton] at hsup hcmem
    rw [← hsup] at hcmem
    exact absurd hcmem (by decide)
  rw [if_neg hnot]
  split <;> decide

/-- Finding with a missing status and two high-tier evidence items. -/
def findingNoStatus : Finding := ⟨some "c2", none, some [evOfficial1, evRegulator1]⟩

/-- Provider result carrying only `findingNoStatus`. -/
def prNoStatus : ProviderResult := ⟨some [findingNoStatus], none⟩

/-- C10 witness: a finding with missing status forces Contested into its
group's status set and blocks Supported, even with two high-tier items. -/
theorem missing_status_never_supported_witness :
    findingNoStatus ∈ allFindings (some prNoStatus) none ∧
      ((∀ p ∈ claimGroups (some prNoStatus) none,
          p.1 = keyOf findingNoStatus → "Contested" ∈ p.2.s) ∧
        (∀ m ∈ mergeFindings (some prNoStatus) none,
          m.claim = keyOf findingNoStatus → m.status ≠ "Supported")) :=
  ⟨by decide,
   missing_status_never_supported (some prNoStatus) none findingNoStatus
     (by decide) (Or.inl rfl)⟩

end Review
